import Mathlib

/-!
Verification of the flashcard LaTeX segmenter, loader and transcoder of
`flashcards.py`.

The Python source is shallowly embedded over `List Char`:

* `parse_latex_file` embeds the function of the same name: a scanner
  equivalent to `re.finditer` for the section pattern, the answer-span
  computation, and the trim-and-discard filter.
* `load_all_flashcards` embeds the loader: a directory is modelled as an
  association list from file name to either its decoded text or a read or
  decode error (fallible reads return `Except`); the glob, the
  lexicographic sort and the per-file tagging follow the source.
* `prepare_latex_for_katex` embeds the transcoder: one scanner per regex
  substitution, applied in exactly the order of the source.

Each regex scanner consumes at least one character per step, so it is
defined by structural recursion on a fuel argument initialised with the
length of the input (this keeps every definition computable by the
kernel); the fuel-free unfolding equations are proved as lemmas.

The embedding restricts text to the character sequences of the source
strings; the regex classes for whitespace and digits are modelled by the
ASCII predicates `isPySpace` and `Char.isDigit`.
-/

set_option maxRecDepth 8000

/-- `leadsWith pat l` is true when `pat` is an initial segment of `l`
(the Boolean prefix test used by every pattern scanner). -/
def leadsWith : List Char → List Char → Bool
  | [], _ => true
  | _ :: _, [] => false
  | p :: ps, c :: cs => p == c && leadsWith ps cs

/-- `containsSub pat l` is true when `pat` occurs as a contiguous
substring of `l`. -/
def containsSub (pat : List Char) : List Char → Bool
  | [] => leadsWith pat []
  | c :: t => leadsWith pat (c :: t) || containsSub pat t

/-- The ASCII whitespace characters removed by Python `str.strip()`. -/
def isPySpace (c : Char) : Bool :=
  c == ' ' || c == '\t' || c == '\n' || c == '\r' || c == '\x0b' || c == '\x0c'

/-- Python `str.strip()`: remove leading and trailing whitespace. -/
def pyStrip (l : List Char) : List Char :=
  ((l.dropWhile isPySpace).reverse.dropWhile isPySpace).reverse

/-- The Python slice `content[a:b]` for non-negative indices, with the
same clamping as Python when an index passes the end of the string. -/
def pySlice (content : List Char) (a b : Nat) : List Char :=
  (content.drop a).take (b - a)

/-- The literal prefix of the section-boundary regex: a backslash,
`section`, and an opening brace. -/
def secMarker : List Char :=
  ['\\', 's', 'e', 'c', 't', 'i', 'o', 'n', '{']

/-- The higher-level division regex of the fallback search: a backslash,
`part`, and an opening brace. -/
def partMarker : List Char :=
  ['\\', 'p', 'a', 'r', 't', '{']

/-- Index of the first closing brace of `l`, the character on which the
greedy group `[^...]+` of the section pattern must end. -/
def findBraceIdx : List Char → Option Nat
  | [] => none
  | c :: t => if c == '}' then some 0 else (findBraceIdx t).map (· + 1)

/-- Index of the first occurrence of the division marker in `l`, as found
by `re.search` for that pattern. -/
def findPartIdx : List Char → Option Nat
  | [] => none
  | c :: t =>
    if leadsWith partMarker (c :: t) then some 0 else (findPartIdx t).map (· + 1)

/-- One `re.finditer` match of the section pattern: the span
`[sStart, sStop)` of the whole match and the captured title group. -/
structure SecMatch where
  sStart : Nat
  sStop : Nat
  title : List Char
deriving DecidableEq

/-- Fuel-indexed scan of `re.finditer` for the section pattern: at each
position try the marker followed by a non-empty brace-free group and a
closing brace; on success record the match and resume after it, otherwise
advance one character.  `pos` is the offset inside the whole document. -/
def findSectionsAuxF : Nat → List Char → Nat → List SecMatch
  | 0, _, _ => []
  | _ + 1, [], _ => []
  | fuel + 1, c :: t, pos =>
    if leadsWith secMarker (c :: t) then
      match findBraceIdx ((c :: t).drop 9) with
      | some i =>
        if i == 0 then
          findSectionsAuxF fuel t (pos + 1)
        else
          ⟨pos, pos + 10 + i, ((c :: t).drop 9).take i⟩ ::
            findSectionsAuxF fuel ((c :: t).drop (10 + i)) (pos + 10 + i)
      | none => findSectionsAuxF fuel t (pos + 1)
    else
      findSectionsAuxF fuel t (pos + 1)

/-- The section scan with enough fuel for its input. -/
def findSectionsAux (l : List Char) (pos : Nat) : List SecMatch :=
  findSectionsAuxF l.length l pos

/-- All matches of the section pattern in document order. -/
def sectionMatches (content : List Char) : List SecMatch :=
  findSectionsAux content 0

/-- The end of the answer span of the last section: the start of the
first division marker after it, if any, else the end of the document. -/
def lastAnswerEnd (content : List Char) (aStart : Nat) : Nat :=
  match findPartIdx (content.drop aStart) with
  | some k => aStart + k
  | none => content.length

/-- The raw (untrimmed) title and answer span of every match: the answer
runs from the end of the match to the start of the next match, or for the
last match to `lastAnswerEnd`. -/
def rawPairs (content : List Char) : List SecMatch → List (List Char × List Char)
  | [] => []
  | m :: rest =>
    let aEnd :=
      match rest with
      | m' :: _ => m'.sStart
      | [] => lastAnswerEnd content m.sStop
    (m.title, pySlice content m.sStop aEnd) :: rawPairs content rest

/-- The trim-and-discard step applied to one raw pair: both components
are stripped and the pair is kept only when both are non-empty. -/
def keepPair (p : List Char × List Char) : Option (List Char × List Char) :=
  let q := pyStrip p.1
  let a := pyStrip p.2
  if q ≠ [] ∧ a ≠ [] then some (q, a) else none

/-- `parse_latex_file` of the source, applied to the decoded text of one
document. -/
def parse_latex_file (content : List Char) : List (List Char × List Char) :=
  (rawPairs content (sectionMatches content)).filterMap keepPair

/-- The glob `lecture_*.tex`: an unconstrained wildcard between the fixed
leading and trailing parts of the file name. -/
def matchesLectureGlob (name : List Char) : Bool :=
  leadsWith "lecture_".data name && name.reverse.take 4 == ".tex".data.reverse

/-- Lexicographic comparison of file names by character code, the order
`sorted` uses for paths inside one directory. -/
def lexLe : List Char → List Char → Bool
  | [], _ => true
  | _ :: _, [] => false
  | a :: as, b :: bs => if a < b then true else if b < a then false else lexLe as bs

/-- `lexLe` as a relation, for the sorting lemmas. -/
def lexRel (a b : List Char) : Prop := lexLe a b = true

instance : DecidableRel lexRel := fun a b =>
  inferInstanceAs (Decidable (lexLe a b = true))

/-- First binding of `name` in the directory listing (a real directory
has each name at most once). -/
def lookupName (name : List Char) :
    List (List Char × Except Nat (List Char)) → Option (Except Nat (List Char))
  | [] => none
  | (k, v) :: t => if k = name then some v else lookupName name t

/-- The loader loop over the sorted matching file names: each file is
read and parsed in turn; a read or decode error aborts the loop and is
propagated, exactly as an uncaught Python exception would.  (The `none`
branch is unreachable: the loop only receives names listed in `dir`.) -/
def goLoad (dir : List (List Char × Except Nat (List Char))) :
    List (List Char) → Except Nat (List (List Char × List Char × List Char))
  | [] => .ok []
  | n :: rest =>
    match lookupName n dir with
    | some (.ok content) =>
      match goLoad dir rest with
      | .ok out =>
        .ok ((parse_latex_file content).map (fun p => (p.1, p.2, n)) ++ out)
      | .error e => .error e
    | some (.error e) => .error e
    | none => goLoad dir rest

/-- `load_all_flashcards` of the source over a modelled directory: the
names matching the glob are sorted lexicographically and each file is
parsed and its records tagged with the file name.  The result is an error
when any matching file fails to read or decode. -/
def load_all_flashcards (dir : List (List Char × Except Nat (List Char))) :
    Except Nat (List (List Char × List Char × List Char)) :=
  goLoad dir (List.insertionSort lexRel ((dir.map Prod.fst).filter matchesLectureGlob))

/-- Index of the first occurrence of the display-math closer (backslash,
right bracket) in `l`; the non-greedy group of the display-math pattern
ends right before it. -/
def findCloseIdx : List Char → Option Nat
  | [] => none
  | [_] => none
  | c₁ :: c₂ :: t =>
    if c₁ == '\\' && c₂ == ']' then some 0
    else (findCloseIdx (c₂ :: t)).map (· + 1)

/-- Fuel-indexed display-math rewrite (source line 72): each block opened
by a backslash-bracket and closed by the nearest backslash-bracket is
replaced by the same content between double dollars; the dot of the group
matches newlines (`re.DOTALL`). -/
def subDisplayMathF : Nat → List Char → List Char
  | 0, l => l
  | _ + 1, [] => []
  | _ + 1, [c] => [c]
  | fuel + 1, c₁ :: c₂ :: t =>
    if c₁ == '\\' && c₂ == '[' then
      match findCloseIdx t with
      | some i =>
        '$' :: '$' :: (t.take i ++ '$' :: '$' :: subDisplayMathF fuel (t.drop (i + 2)))
      | none => c₁ :: subDisplayMathF fuel (c₂ :: t)
    else c₁ :: subDisplayMathF fuel (c₂ :: t)

/-- The display-math rewrite with enough fuel for its input. -/
def subDisplayMath (l : List Char) : List Char :=
  subDisplayMathF l.length l

/-- Fuel-indexed literal `re.sub`: every non-overlapping occurrence of
`pat` is replaced by `repl`, scanning left to right. -/
def replaceAllF (pat repl : List Char) : Nat → List Char → List Char
  | 0, l => l
  | _ + 1, [] => []
  | fuel + 1, c :: t =>
    if pat.isEmpty = false ∧ leadsWith pat (c :: t) = true then
      repl ++ replaceAllF pat repl fuel ((c :: t).drop pat.length)
    else c :: replaceAllF pat repl fuel t

/-- One literal `re.sub` with enough fuel for its input. -/
def replaceAll (pat repl : List Char) (l : List Char) : List Char :=
  replaceAllF pat repl l.length l

/-- Fuel-indexed rewrite of a command with a single non-empty braced
argument (`textbf`, `textit`, `emph`): `pre` then a non-empty brace-free
group then a closing brace becomes `openT`, the group, `closeT`. -/
def subGroupCmdF (pre openT closeT : List Char) : Nat → List Char → List Char
  | 0, l => l
  | _ + 1, [] => []
  | fuel + 1, c :: t =>
    if leadsWith pre (c :: t) then
      match findBraceIdx ((c :: t).drop pre.length) with
      | some i =>
        if i == 0 then c :: subGroupCmdF pre openT closeT fuel t
        else
          openT ++ ((c :: t).drop pre.length).take i ++ closeT ++
            subGroupCmdF pre openT closeT fuel ((c :: t).drop (pre.length + i + 1))
      | none => c :: subGroupCmdF pre openT closeT fuel t
    else c :: subGroupCmdF pre openT closeT fuel t

/-- A braced-argument rewrite with enough fuel for its input. -/
def subGroupCmd (pre openT closeT : List Char) (l : List Char) : List Char :=
  subGroupCmdF pre openT closeT l.length l

/-- The literal prefix of the algorithmic-environment pattern, up to and
including its opening square bracket. -/
def algomicMarker : List Char :=
  ['\\', 'b', 'e', 'g', 'i', 'n', '{', 'a', 'l', 'g', 'o', 'r', 'i', 't',
   'h', 'm', 'i', 'c', '}', '[']

/-- Fuel-indexed algorithmic-environment rewrite (source line 77): the
marker, a possibly empty run of digits, and a closing square bracket
become the container open tag.  Without the bracketed part the pattern
does not match. -/
def subAlgorithmicF : Nat → List Char → List Char
  | 0, l => l
  | _ + 1, [] => []
  | fuel + 1, c :: t =>
    if leadsWith algomicMarker (c :: t) then
      if ((c :: t).drop (20 + (((c :: t).drop 20).takeWhile Char.isDigit).length)).head?
          = some ']' then
        "<div class=\"algorithmic\">".data ++
          subAlgorithmicF fuel
            ((c :: t).drop (20 + (((c :: t).drop 20).takeWhile Char.isDigit).length + 1))
      else c :: subAlgorithmicF fuel t
    else c :: subAlgorithmicF fuel t

/-- The algorithmic-environment rewrite with enough fuel for its input. -/
def subAlgorithmic (l : List Char) : List Char :=
  subAlgorithmicF l.length l

/-- The literal prefix of the labelled-item pattern. -/
def itemLMarker : List Char := ['\\', 'i', 't', 'e', 'm', '[']

/-- Index of the first closing square bracket of `l`, failing at the
first newline: the group of the labelled-item pattern is non-greedy and
its dot does not match a newline. -/
def findBracketNoNLIdx : List Char → Option Nat
  | [] => none
  | c :: t =>
    if c == ']' then some 0
    else if c == '\n' then none
    else (findBracketNoNLIdx t).map (· + 1)

/-- Fuel-indexed labelled-item rewrite (source line 90): the marker, a
possibly empty newline-free group, and a closing bracket become a
list-item open tag with the label bolded and a trailing space. -/
def subItemLabelF : Nat → List Char → List Char
  | 0, l => l
  | _ + 1, [] => []
  | fuel + 1, c :: t =>
    if leadsWith itemLMarker (c :: t) then
      match findBracketNoNLIdx ((c :: t).drop 6) with
      | some i =>
        "<li><strong>".data ++ ((c :: t).drop 6).take i ++ "</strong> ".data ++
          subItemLabelF fuel ((c :: t).drop (6 + i + 1))
      | none => c :: subItemLabelF fuel t
    else c :: subItemLabelF fuel t

/-- The labelled-item rewrite with enough fuel for its input. -/
def subItemLabel (l : List Char) : List Char :=
  subItemLabelF l.length l

/-- The unstarred literal prefix of the subsection pattern. -/
def subsecMarker : List Char :=
  ['\\', 's', 'u', 'b', 's', 'e', 'c', 't', 'i', 'o', 'n', '{']

/-- The starred literal prefix of the subsection pattern. -/
def subsecStarMarker : List Char :=
  ['\\', 's', 'u', 'b', 's', 'e', 'c', 't', 'i', 'o', 'n', '*', '{']

/-- Fuel-indexed subsection rewrite (source line 94): the marker, with or
without a star, and a non-empty braced title become a level-4 heading. -/
def subSubsectionF : Nat → List Char → List Char
  | 0, l => l
  | _ + 1, [] => []
  | fuel + 1, c :: t =>
    if leadsWith subsecMarker (c :: t) then
      match findBraceIdx ((c :: t).drop 12) with
      | some i =>
        if i == 0 then c :: subSubsectionF fuel t
        else
          "<h4>".data ++ ((c :: t).drop 12).take i ++ "</h4>".data ++
            subSubsectionF fuel ((c :: t).drop (12 + i + 1))
      | none => c :: subSubsectionF fuel t
    else if leadsWith subsecStarMarker (c :: t) then
      match findBraceIdx ((c :: t).drop 13) with
      | some i =>
        if i == 0 then c :: subSubsectionF fuel t
        else
          "<h4>".data ++ ((c :: t).drop 13).take i ++ "</h4>".data ++
            subSubsectionF fuel ((c :: t).drop (13 + i + 1))
      | none => c :: subSubsectionF fuel t
    else c :: subSubsectionF fuel t

/-- The subsection rewrite with enough fuel for its input. -/
def subSubsection (l : List Char) : List Char :=
  subSubsectionF l.length l

/-- Python `text.split('\n')`. -/
def splitNL : List Char → List (List Char)
  | [] => [[]]
  | c :: t =>
    if c == '\n' then [] :: splitNL t
    else
      match splitNL t with
      | [] => [[c]]
      | h :: r => (c :: h) :: r

/-- Python `'\n'.join(lines)`. -/
def joinNL : List (List Char) → List Char
  | [] => []
  | [l] => l
  | l :: ls => l ++ '\n' :: joinNL ls

/-- The final per-line pass (source lines 119 to 127): every line is
stripped; a line that is blank after stripping becomes a line-break
element. -/
def linesPass (l : List Char) : List Char :=
  joinNL ((splitNL l).map fun line =>
    let s := pyStrip line
    if s.isEmpty then "<br>".data else s)

/-- `prepare_latex_for_katex` of the source: the substitutions in source
order (lines 72 to 116), then the per-line pass. -/
def prepare_latex_for_katex (l : List Char) : List Char :=
  let t := subDisplayMath l
  let t := replaceAll "\\begin\x7balgorithm\x7d".data "<div class=\"algorithm\">".data t
  let t := replaceAll "\\end\x7balgorithm\x7d".data "</div>".data t
  let t := subAlgorithmic t
  let t := replaceAll "\\end\x7balgorithmic\x7d".data "</div>".data t
  let t := subGroupCmd "\\textbf\x7b".data "<strong>".data "</strong>".data t
  let t := subGroupCmd "\\textit\x7b".data "<em>".data "</em>".data t
  let t := subGroupCmd "\\emph\x7b".data "<em>".data "</em>".data t
  let t := replaceAll "\\begin\x7bitemize\x7d".data "<ul>".data t
  let t := replaceAll "\\end\x7bitemize\x7d".data "</ul>".data t
  let t := replaceAll "\\begin\x7benumerate\x7d".data "<ol>".data t
  let t := replaceAll "\\end\x7benumerate\x7d".data "</ol>".data t
  let t := subItemLabel t
  let t := replaceAll "\\item".data "<li>".data t
  let t := subSubsection t
  let t := replaceAll "\\Require".data "<span class=\"algo-keyword\">Require:</span>".data t
  let t := replaceAll "\\Ensure".data "<span class=\"algo-keyword\">Ensure:</span>".data t
  let t := replaceAll "\\State".data "<br>&nbsp;&nbsp;".data t
  let t := replaceAll "\\Repeat".data "<span class=\"algo-keyword\">Repeat:</span>".data t
  let t := replaceAll "\\Until".data "<span class=\"algo-keyword\">Until:</span>".data t
  let t := replaceAll "\\If".data "<span class=\"algo-keyword\">If</span>".data t
  let t := replaceAll "\\Else".data "<span class=\"algo-keyword\">Else</span>".data t
  let t := replaceAll "\\EndIf".data "".data t
  let t := replaceAll "\\For".data "<span class=\"algo-keyword\">For</span>".data t
  let t := replaceAll "\\EndFor".data "".data t
  let t := replaceAll "\\Return".data "<span class=\"algo-keyword\">Return:</span>".data t
  let t := replaceAll "\\quad".data "&emsp;".data t
  let t := replaceAll "\\qquad".data "&emsp;&emsp;".data t
  let t := replaceAll "\\;".data "&thinsp;".data t
  let t := replaceAll "\\,".data "&thinsp;".data t
  let t := replaceAll "\\!".data "".data t
  let t := replaceAll "\\\\".data "<br>".data t
  let t := replaceAll "\\newline".data "<br>".data t
  linesPass t

/-- The transcoder on strings. -/
def transcode (s : String) : String :=
  String.mk (prepare_latex_for_katex s.data)

/-- True when the text contains no backslash, hence no character that any
substitution pattern of the transcoder can anchor on. -/
def noBackslash (l : List Char) : Bool := l.all (fun c => c != '\\')

/-- True when every line of the text is non-empty and already stripped,
so the final per-line pass leaves the text unchanged. -/
def linesNormal (l : List Char) : Bool :=
  (splitNL l).all (fun line => !line.isEmpty && pyStrip line == line)

/-- Decidable equality for `Except`, so that concrete loader results can
be checked by `decide`. -/
instance {e a : Type} [DecidableEq e] [DecidableEq a] : DecidableEq (Except e a) := fun x y =>
  match x, y with
  | .ok u, .ok v =>
    if h : u = v then .isTrue (by rw [h]) else .isFalse (fun hh => by cases hh; exact h rfl)
  | .ok _, .error _ => .isFalse (fun hh => by cases hh)
  | .error _, .ok _ => .isFalse (fun hh => by cases hh)
  | .error u, .error v =>
    if h : u = v then .isTrue (by rw [h]) else .isFalse (fun hh => by cases hh; exact h rfl)

/-! ## Fuel irrelevance and unfolding equations for the scanners -/

theorem findSectionsAuxF_irrel :
    ∀ n m : Nat, ∀ l : List Char, ∀ pos : Nat, l.length ≤ n → l.length ≤ m →
      findSectionsAuxF n l pos = findSectionsAuxF m l pos := by
  intro n
  induction n with
  | zero =>
    intro m l pos hn _
    have hl : l = [] := by
      cases l with
      | nil => rfl
      | cons c t => simp at hn
    subst hl
    cases m <;> rfl
  | succ n ih =>
    intro m l pos hn hm
    cases m with
    | zero =>
      have hl : l = [] := by
        cases l with
        | nil => rfl
        | cons c t => simp at hm
      subst hl
      rfl
    | succ m' =>
      cases l with
      | nil => rfl
      | cons c t =>
        simp only [List.length_cons] at hn hm
        simp only [findSectionsAuxF]
        split
        · split
          · split
            · exact ih m' t (pos + 1) (by omega) (by omega)
            · congr 1
              exact ih m' _ _ (by simp [List.length_drop] <;> omega)
                (by simp [List.length_drop] <;> omega)
          · exact ih m' t (pos + 1) (by omega) (by omega)
        · exact ih m' t (pos + 1) (by omega) (by omega)

theorem subDisplayMathF_irrel :
    ∀ n m : Nat, ∀ l : List Char, l.length ≤ n → l.length ≤ m →
      subDisplayMathF n l = subDisplayMathF m l := by
  intro n
  induction n with
  | zero =>
    intro m l hn _
    have hl : l = [] := by
      cases l with
      | nil => rfl
      | cons c t => simp at hn
    subst hl
    cases m <;> rfl
  | succ n ih =>
    intro m l hn hm
    cases m with
    | zero =>
      have hl : l = [] := by
        cases l with
        | nil => rfl
        | cons c t => simp at hm
      subst hl
      rfl
    | succ m' =>
      cases l with
      | nil => rfl
      | cons c₁ l' =>
        cases l' with
        | nil => rfl
        | cons c₂ t =>
          simp only [List.length_cons] at hn hm
          simp only [subDisplayMathF]
          split
          · split
            · rename_i i _
              rw [ih m' (t.drop (i + 2)) (by simp [List.length_drop] <;> omega)
                (by simp [List.length_drop] <;> omega)]
            · congr 1
              exact ih m' (c₂ :: t) (by simp; omega) (by simp; omega)
          · congr 1
            exact ih m' (c₂ :: t) (by simp; omega) (by simp; omega)

theorem replaceAllF_irrel (pat repl : List Char) :
    ∀ n m : Nat, ∀ l : List Char, l.length ≤ n → l.length ≤ m →
      replaceAllF pat repl n l = replaceAllF pat repl m l := by
  intro n
  induction n with
  | zero =>
    intro m l hn _
    have hl : l = [] := by
      cases l with
      | nil => rfl
      | cons c t => simp at hn
    subst hl
    cases m <;> rfl
  | succ n ih =>
    intro m l hn hm
    cases m with
    | zero =>
      have hl : l = [] := by
        cases l with
        | nil => rfl
        | cons c t => simp at hm
      subst hl
      rfl
    | succ m' =>
      cases l with
      | nil => rfl
      | cons c t =>
        simp only [List.length_cons] at hn hm
        simp only [replaceAllF]
        split
        · next h =>
          have hp : 1 ≤ pat.length := by
            cases pat with
            | nil => simp at h
            | cons a b => simp
          congr 1
          exact ih m' _ (by simp [List.length_drop] <;> omega)
            (by simp [List.length_drop] <;> omega)
        · congr 1
          exact ih m' t (by omega) (by omega)

theorem subGroupCmdF_irrel (pre openT closeT : List Char) :
    ∀ n m : Nat, ∀ l : List Char, l.length ≤ n → l.length ≤ m →
      subGroupCmdF pre openT closeT n l = subGroupCmdF pre openT closeT m l := by
  intro n
  induction n with
  | zero =>
    intro m l hn _
    have hl : l = [] := by
      cases l with
      | nil => rfl
      | cons c t => simp at hn
    subst hl
    cases m <;> rfl
  | succ n ih =>
    intro m l hn hm
    cases m with
    | zero =>
      have hl : l = [] := by
        cases l with
        | nil => rfl
        | cons c t => simp at hm
      subst hl
      rfl
    | succ m' =>
      cases l with
      | nil => rfl
      | cons c t =>
        simp only [List.length_cons] at hn hm
        simp only [subGroupCmdF]
        split
        · split
          · split
            · congr 1
              exact ih m' t (by omega) (by omega)
            · congr 1
              exact ih m' _ (by simp [List.length_drop] <;> omega)
                (by simp [List.length_drop] <;> omega)
          · congr 1
            exact ih m' t (by omega) (by omega)
        · congr 1
          exact ih m' t (by omega) (by omega)

theorem subAlgorithmicF_irrel :
    ∀ n m : Nat, ∀ l : List Char, l.length ≤ n → l.length ≤ m →
      subAlgorithmicF n l = subAlgorithmicF m l := by
  intro n
  induction n with
  | zero =>
    intro m l hn _
    have hl : l = [] := by
      cases l with
      | nil => rfl
      | cons c t => simp at hn
    subst hl
    cases m <;> rfl
  | succ n ih =>
    intro m l hn hm
    cases m with
    | zero =>
      have hl : l = [] := by
        cases l with
        | nil => rfl
        | cons c t => simp at hm
      subst hl
      rfl
    | succ m' =>
      cases l with
      | nil => rfl
      | cons c t =>
        simp only [List.length_cons] at hn hm
        simp only [subAlgorithmicF]
        split
        · split
          · congr 1
            exact ih m' _ (by simp [List.length_drop] <;> omega)
              (by simp [List.length_drop] <;> omega)
          · congr 1
            exact ih m' t (by omega) (by omega)
        · congr 1
          exact ih m' t (by omega) (by omega)

theorem subItemLabelF_irrel :
    ∀ n m : Nat, ∀ l : List Char, l.length ≤ n → l.length ≤ m →
      subItemLabelF n l = subItemLabelF m l := by
  intro n
  induction n with
  | zero =>
    intro m l hn _
    have hl : l = [] := by
      cases l with
      | nil => rfl
      | cons c t => simp at hn
    subst hl
    cases m <;> rfl
  | succ n ih =>
    intro m l hn hm
    cases m with
    | zero =>
      have hl : l = [] := by
        cases l with
        | nil => rfl
        | cons c t => simp at hm
      subst hl
      rfl
    | succ m' =>
      cases l with
      | nil => rfl
      | cons c t =>
        simp only [List.length_cons] at hn hm
        simp only [subItemLabelF]
        split
        · split
          · rename_i i _
            rw [ih m' ((c :: t).drop (6 + i + 1)) (by simp [List.length_drop] <;> omega)
              (by simp [List.length_drop] <;> omega)]
          · congr 1
            exact ih m' t (by omega) (by omega)
        · congr 1
          exact ih m' t (by omega) (by omega)

theorem subSubsectionF_irrel :
    ∀ n m : Nat, ∀ l : List Char, l.length ≤ n → l.length ≤ m →
      subSubsectionF n l = subSubsectionF m l := by
  intro n
  induction n with
  | zero =>
    intro m l hn _
    have hl : l = [] := by
      cases l with
      | nil => rfl
      | cons c t => simp at hn
    subst hl
    cases m <;> rfl
  | succ n ih =>
    intro m l hn hm
    cases m with
    | zero =>
      have hl : l = [] := by
        cases l with
        | nil => rfl
        | cons c t => simp at hm
      subst hl
      rfl
    | succ m' =>
      cases l with
      | nil => rfl
      | cons c t =>
        simp only [List.length_cons] at hn hm
        simp only [subSubsectionF]
        split
        · split
          · split
            · congr 1
              exact ih m' t (by omega) (by omega)
            · congr 1
              exact ih m' _ (by simp [List.length_drop] <;> omega)
                (by simp [List.length_drop] <;> omega)
          · congr 1
            exact ih m' t (by omega) (by omega)
        · split
          · split
            · split
              · congr 1
                exact ih m' t (by omega) (by omega)
              · congr 1
                exact ih m' _ (by simp [List.length_drop] <;> omega)
                  (by simp [List.length_drop] <;> omega)
            · congr 1
              exact ih m' t (by omega) (by omega)
          · congr 1
            exact ih m' t (by omega) (by omega)

theorem findSectionsAux_cons (c : Char) (t : List Char) (pos : Nat) :
    findSectionsAux (c :: t) pos =
      if leadsWith secMarker (c :: t) then
        match findBraceIdx ((c :: t).drop 9) with
        | some i =>
          if i == 0 then
            findSectionsAux t (pos + 1)
          else
            ⟨pos, pos + 10 + i, ((c :: t).drop 9).take i⟩ ::
              findSectionsAux ((c :: t).drop (10 + i)) (pos + 10 + i)
        | none => findSectionsAux t (pos + 1)
      else findSectionsAux t (pos + 1) := by
  show findSectionsAuxF (t.length + 1) (c :: t) pos = _
  simp only [findSectionsAuxF]
  split
  · split
    · split
      · rfl
      · rename_i i _ _
        congr 1
        exact findSectionsAuxF_irrel t.length ((c :: t).drop (10 + i)).length _ _
          (by simp [List.length_drop] <;> omega) (le_refl _)
    · rfl
  · rfl

theorem subDisplayMath_cons₂ (c₁ c₂ : Char) (t : List Char) :
    subDisplayMath (c₁ :: c₂ :: t) =
      if c₁ == '\\' && c₂ == '[' then
        match findCloseIdx t with
        | some i =>
          '$' :: '$' :: (t.take i ++ '$' :: '$' :: subDisplayMath (t.drop (i + 2)))
        | none => c₁ :: subDisplayMath (c₂ :: t)
      else c₁ :: subDisplayMath (c₂ :: t) := by
  show subDisplayMathF (t.length + 1 + 1) (c₁ :: c₂ :: t) = _
  simp only [subDisplayMathF]
  split
  · split
    · rename_i i _
      rw [subDisplayMathF_irrel (t.length + 1) (t.drop (i + 2)).length (t.drop (i + 2))
        (by simp [List.length_drop] <;> omega) (le_refl _)]
      rfl
    · rfl
  · rfl

theorem replaceAll_cons (pat repl : List Char) (c : Char) (t : List Char) :
    replaceAll pat repl (c :: t) =
      if pat.isEmpty = false ∧ leadsWith pat (c :: t) = true then
        repl ++ replaceAll pat repl ((c :: t).drop pat.length)
      else c :: replaceAll pat repl t := by
  show replaceAllF pat repl (t.length + 1) (c :: t) = _
  simp only [replaceAllF]
  split
  · next h =>
    have hp : 1 ≤ pat.length := by
      cases pat with
      | nil => simp at h
      | cons a b => simp
    congr 1
    exact replaceAllF_irrel pat repl t.length ((c :: t).drop pat.length).length _
      (by simp [List.length_drop] <;> omega) (le_refl _)
  · rfl

theorem subGroupCmd_cons (pre openT closeT : List Char) (c : Char) (t : List Char) :
    subGroupCmd pre openT closeT (c :: t) =
      if leadsWith pre (c :: t) then
        match findBraceIdx ((c :: t).drop pre.length) with
        | some i =>
          if i == 0 then c :: subGroupCmd pre openT closeT t
          else
            openT ++ ((c :: t).drop pre.length).take i ++ closeT ++
              subGroupCmd pre openT closeT ((c :: t).drop (pre.length + i + 1))
        | none => c :: subGroupCmd pre openT closeT t
      else c :: subGroupCmd pre openT closeT t := by
  show subGroupCmdF pre openT closeT (t.length + 1) (c :: t) = _
  simp only [subGroupCmdF]
  split
  · split
    · split
      · rfl
      · rename_i i _ _
        rw [subGroupCmdF_irrel pre openT closeT t.length
          ((c :: t).drop (pre.length + i + 1)).length ((c :: t).drop (pre.length + i + 1))
          (by simp [List.length_drop] <;> omega) (le_refl _)]
        rfl
    · rfl
  · rfl

theorem subAlgorithmic_cons (c : Char) (t : List Char) :
    subAlgorithmic (c :: t) =
      if leadsWith algomicMarker (c :: t) then
        if ((c :: t).drop (20 + (((c :: t).drop 20).takeWhile Char.isDigit).length)).head?
            = some ']' then
          "<div class=\"algorithmic\">".data ++
            subAlgorithmic
              ((c :: t).drop (20 + (((c :: t).drop 20).takeWhile Char.isDigit).length + 1))
        else c :: subAlgorithmic t
      else c :: subAlgorithmic t := by
  show subAlgorithmicF (t.length + 1) (c :: t) = _
  simp only [subAlgorithmicF]
  split
  · split
    · congr 1
      exact subAlgorithmicF_irrel t.length _ _
        (by simp [List.length_drop] <;> omega) (le_refl _)
    · rfl
  · rfl

theorem subItemLabel_cons (c : Char) (t : List Char) :
    subItemLabel (c :: t) =
      if leadsWith itemLMarker (c :: t) then
        match findBracketNoNLIdx ((c :: t).drop 6) with
        | some i =>
          "<li><strong>".data ++ ((c :: t).drop 6).take i ++ "</strong> ".data ++
            subItemLabel ((c :: t).drop (6 + i + 1))
        | none => c :: subItemLabel t
      else c :: subItemLabel t := by
  show subItemLabelF (t.length + 1) (c :: t) = _
  simp only [subItemLabelF]
  split
  · split
    · rename_i i _
      rw [subItemLabelF_irrel t.length ((c :: t).drop (6 + i + 1)).length
        ((c :: t).drop (6 + i + 1)) (by simp [List.length_drop] <;> omega) (le_refl _)]
      rfl
    · rfl
  · rfl

theorem subSubsection_cons (c : Char) (t : List Char) :
    subSubsection (c :: t) =
      if leadsWith subsecMarker (c :: t) then
        match findBraceIdx ((c :: t).drop 12) with
        | some i =>
          if i == 0 then c :: subSubsection t
          else
            "<h4>".data ++ ((c :: t).drop 12).take i ++ "</h4>".data ++
              subSubsection ((c :: t).drop (12 + i + 1))
        | none => c :: subSubsection t
      else if leadsWith subsecStarMarker (c :: t) then
        match findBraceIdx ((c :: t).drop 13) with
        | some i =>
          if i == 0 then c :: subSubsection t
          else
            "<h4>".data ++ ((c :: t).drop 13).take i ++ "</h4>".data ++
              subSubsection ((c :: t).drop (13 + i + 1))
        | none => c :: subSubsection t
      else c :: subSubsection t := by
  show subSubsectionF (t.length + 1) (c :: t) = _
  simp only [subSubsectionF]
  split
  · split
    · split
      · rfl
      · rename_i i _ _
        rw [subSubsectionF_irrel t.length ((c :: t).drop (12 + i + 1)).length
          ((c :: t).drop (12 + i + 1)) (by simp [List.length_drop] <;> omega) (le_refl _)]
        rfl
    · rfl
  · split
    · split
      · split
        · rfl
        · rename_i i _ _
          rw [subSubsectionF_irrel t.length ((c :: t).drop (13 + i + 1)).length
            ((c :: t).drop (13 + i + 1)) (by simp [List.length_drop] <;> omega) (le_refl _)]
          rfl
      · rfl
    · rfl

/-! ## Basic lemmas about the scanners -/

theorem leadsWith_append (pat r : List Char) : leadsWith pat (pat ++ r) = true := by
  induction pat with
  | nil => rfl
  | cons p ps ih => simp [leadsWith, ih]

theorem leadsWith_decomp (pat : List Char) :
    ∀ l : List Char, leadsWith pat l = true → l = pat ++ l.drop pat.length := by
  induction pat with
  | nil => intro l _; simp
  | cons p ps ih =>
    intro l h
    cases l with
    | nil => simp [leadsWith] at h
    | cons c cs =>
      simp only [leadsWith, Bool.and_eq_true, beq_iff_eq] at h
      obtain ⟨h1, h2⟩ := h
      subst h1
      simpa using ih cs h2

theorem containsSub_cons_false (pat : List Char) (c : Char) (t : List Char)
    (h : containsSub pat (c :: t) = false) :
    leadsWith pat (c :: t) = false ∧ containsSub pat t = false := by
  simpa [containsSub] using h

theorem findBraceIdx_decomp (l : List Char) :
    ∀ i : Nat, findBraceIdx l = some i →
      i < l.length ∧ l = l.take i ++ '}' :: l.drop (i + 1) := by
  induction l with
  | nil => intro i h; simp [findBraceIdx] at h
  | cons c t ih =>
    intro i h
    by_cases hc : c = '}'
    · subst hc
      simp [findBraceIdx] at h
      subst h
      simp
    · simp [findBraceIdx, hc, Option.map_eq_some'] at h
      obtain ⟨a, ha, rfl⟩ := h
      obtain ⟨ha1, ha2⟩ := ih a ha
      refine ⟨by simpa using Nat.succ_lt_succ ha1, ?_⟩
      simpa [List.take_succ_cons, List.drop_succ_cons] using ha2

theorem findPartIdx_some (l : List Char) :
    ∀ i : Nat, findPartIdx l = some i →
      leadsWith partMarker (l.drop i) = true ∧
      ∀ j, j < i → leadsWith partMarker (l.drop j) = false := by
  induction l with
  | nil => intro i h; simp [findPartIdx] at h
  | cons c t ih =>
    intro i h
    by_cases hc : leadsWith partMarker (c :: t) = true
    · simp [findPartIdx, hc] at h
      subst h
      exact ⟨hc, by omega⟩
    · simp [findPartIdx, hc, Option.map_eq_some'] at h
      obtain ⟨a, ha, rfl⟩ := h
      obtain ⟨h1, h2⟩ := ih a ha
      refine ⟨by simpa using h1, ?_⟩
      intro j hj
      cases j with
      | zero => simpa using eq_false_of_ne_true hc
      | succ j' => simpa using h2 j' (by omega)

theorem findPartIdx_none (l : List Char) (h : findPartIdx l = none) :
    ∀ j, leadsWith partMarker (l.drop j) = false := by
  induction l with
  | nil =>
    intro j
    simp [List.drop_nil]
    decide
  | cons c t ih =>
    by_cases hc : leadsWith partMarker (c :: t) = true
    · simp [findPartIdx, hc] at h
    · simp [findPartIdx, hc] at h
      intro j
      cases j with
      | zero => simpa using eq_false_of_ne_true hc
      | succ j' => simpa using ih h j'

theorem takeLenAppend (a b : List Char) (n : Nat) :
    (a ++ b).take (a.length + n) = a ++ b.take n := by
  induction a with
  | nil => simp
  | cons x xs ih =>
    have h : xs.length + 1 + n = (xs.length + n) + 1 := by omega
    simp only [List.cons_append, List.length_cons, h, List.take_succ_cons, ih]

theorem dropLenAppend (a b : List Char) (n : Nat) :
    (a ++ b).drop (a.length + n) = b.drop n := by
  induction a with
  | nil => simp
  | cons x xs ih =>
    have h : xs.length + 1 + n = (xs.length + n) + 1 := by omega
    simp only [List.cons_append, List.length_cons, h, List.drop_succ_cons, ih]

theorem findCloseIdx_append (s : List Char) :
    ∀ c : List Char, containsSub ['\\', ']'] c = false →
      findCloseIdx (c ++ '\\' :: ']' :: s) = some c.length := by
  intro c
  induction c with
  | nil => intro _; simp [findCloseIdx]
  | cons x xs ih =>
    intro hc
    obtain ⟨hlw, hcs⟩ := containsSub_cons_false _ _ _ hc
    cases xs with
    | nil =>
      have hx : (('\\' : Char) == ']') = false := by decide
      simp [findCloseIdx, hx, Option.map_eq_some']
    | cons y ys =>
      have hxy : (x == '\\' && y == ']') = false := by
        by_contra hb
        have : x = '\\' ∧ y = ']' := by
          simpa using Bool.of_not_eq_false hb
        simp [leadsWith, this.1, this.2] at hlw
      have := ih hcs
      simp only [List.cons_append] at this ⊢
      simp [findCloseIdx, hxy, Option.map_eq_some', this]

theorem subDisplayMath_head (c s : List Char) (hc : containsSub ['\\', ']'] c = false) :
    subDisplayMath ('\\' :: '[' :: (c ++ '\\' :: ']' :: s)) =
      '$' :: '$' :: (c ++ '$' :: '$' :: subDisplayMath s) := by
  have hfc := findCloseIdx_append s c hc
  have htake : (c ++ '\\' :: ']' :: s).take c.length = c := by
    simpa using takeLenAppend c ('\\' :: ']' :: s) 0
  have hdrop : (c ++ '\\' :: ']' :: s).drop (c.length + 2) = s := by
    simpa using dropLenAppend c ('\\' :: ']' :: s) 2
  rw [subDisplayMath_cons₂]
  simp [hfc, htake, hdrop]

theorem subDisplayMath_append (c s : List Char)
    (hc : containsSub ['\\', ']'] c = false) :
    ∀ p : List Char, containsSub ['\\', '['] p = false →
      subDisplayMath (p ++ '\\' :: '[' :: (c ++ '\\' :: ']' :: s)) =
        p ++ '$' :: '$' :: (c ++ '$' :: '$' :: subDisplayMath s) := by
  intro p
  induction p with
  | nil => intro _; simpa using subDisplayMath_head c s hc
  | cons x p' ih =>
    intro hp
    obtain ⟨hlw, hps⟩ := containsSub_cons_false _ _ _ hp
    cases p' with
    | nil =>
      have hx : (('\\' : Char) == '[') = false := by decide
      simp only [List.cons_append, List.nil_append]
      rw [subDisplayMath_cons₂]
      simp only [hx, Bool.and_false, Bool.false_eq_true, if_false]
      rw [subDisplayMath_head c s hc]
    | cons y p'' =>
      have hxy : (x == '\\' && y == '[') = false := by
        by_contra hb
        have hb2 : x = '\\' ∧ y = '[' := by
          simpa using Bool.of_not_eq_false hb
        simp [leadsWith, hb2.1, hb2.2] at hlw
      have := ih hps
      simp only [List.cons_append] at this ⊢
      rw [subDisplayMath_cons₂]
      simp only [hxy, Bool.false_eq_true, if_false]
      rw [this]

theorem takeWhileAllAppend (p : Char → Bool) (ds : List Char) (c : Char) (s : List Char)
    (h : ds.all p = true) (hc : p c = false) :
    (ds ++ c :: s).takeWhile p = ds := by
  induction ds with
  | nil => simp [List.takeWhile_cons, hc]
  | cons x xs ih =>
    simp only [List.all_cons, Bool.and_eq_true] at h
    simp [List.takeWhile_cons, h.1, ih h.2]

theorem dropWhileAllNil (p : Char → Bool) (l : List Char) (h : l.all p = true) :
    l.dropWhile p = [] := by
  induction l with
  | nil => rfl
  | cons x xs ih =>
    simp only [List.all_cons, Bool.and_eq_true] at h
    simp [List.dropWhile_cons, h.1, ih h.2]

theorem pyStrip_nil_of_all_space (l : List Char) (h : l.all isPySpace = true) :
    pyStrip l = [] := by
  have h1 : l.dropWhile isPySpace = [] := dropWhileAllNil _ _ h
  simp [pyStrip, h1]

theorem splitNL_no_newline (l : List Char) (h : '\n' ∉ l) : splitNL l = [l] := by
  induction l with
  | nil => rfl
  | cons c t ih =>
    simp only [List.mem_cons, not_or] at h
    have hc : (c == '\n') = false := by
      simpa using fun hh => h.1 hh.symm
    simp [splitNL, hc, ih h.2]

/-! ## Pass-through lemmas: text without a backslash is left unchanged
by every substitution, and line-normal text by the per-line pass -/

theorem strongListInd {P : List Char → Prop}
    (step : ∀ l : List Char, (∀ m : List Char, m.length < l.length → P m) → P l) :
    ∀ l, P l := by
  have H : ∀ n : Nat, ∀ l : List Char, l.length ≤ n → P l := by
    intro n
    induction n with
    | zero =>
      intro l hl
      exact step l (fun m hm => absurd (Nat.lt_of_lt_of_le hm hl) (Nat.not_lt_zero _))
    | succ n ih =>
      intro l hl
      exact step l (fun m hm => ih m (by omega))
  intro l
  exact H l.length l (le_refl _)

theorem noBackslash_cons (c : Char) (t : List Char) (h : noBackslash (c :: t) = true) :
    c ≠ '\\' ∧ noBackslash t = true := by
  simpa [noBackslash, List.all_cons] using h

theorem leadsWith_false_of_head (pat : List Char) (hp : pat.head? = some '\\')
    (c : Char) (t : List Char) (hc : c ≠ '\\') :
    leadsWith pat (c :: t) = false := by
  cases pat with
  | nil => simp at hp
  | cons p pt =>
    simp only [List.head?_cons, Option.some.injEq] at hp
    subst hp
    simp only [leadsWith, Bool.and_eq_false_iff]
    left
    simpa using fun hh => hc hh.symm

theorem subDisplayMath_nobs : ∀ l, noBackslash l = true → subDisplayMath l = l := by
  apply strongListInd
  intro l ih h
  cases l with
  | nil => rfl
  | cons c₁ l' =>
    cases l' with
    | nil => rfl
    | cons c₂ t =>
      obtain ⟨hc, ht⟩ := noBackslash_cons _ _ h
      rw [subDisplayMath_cons₂]
      have hb : (c₁ == '\\' && c₂ == '[') = false := by
        have h1 : (c₁ == '\\') = false := by simpa using hc
        simp [h1]
      simp only [hb, Bool.false_eq_true, if_false]
      rw [ih (c₂ :: t) (by simp) ht]

theorem replaceAll_nobs (pat repl : List Char) (hp : pat.head? = some '\\') :
    ∀ l, noBackslash l = true → replaceAll pat repl l = l := by
  apply strongListInd
  intro l ih h
  cases l with
  | nil => rfl
  | cons c t =>
    obtain ⟨hc, ht⟩ := noBackslash_cons _ _ h
    rw [replaceAll_cons]
    have hlw := leadsWith_false_of_head pat hp c t hc
    simp only [hlw, Bool.false_eq_true, and_false, if_false]
    rw [ih t (by simp) ht]

theorem subGroupCmd_nobs (pre openT closeT : List Char) (hp : pre.head? = some '\\') :
    ∀ l, noBackslash l = true → subGroupCmd pre openT closeT l = l := by
  apply strongListInd
  intro l ih h
  cases l with
  | nil => rfl
  | cons c t =>
    obtain ⟨hc, ht⟩ := noBackslash_cons _ _ h
    rw [subGroupCmd_cons]
    have hlw := leadsWith_false_of_head pre hp c t hc
    simp only [hlw, Bool.false_eq_true, if_false]
    rw [ih t (by simp) ht]

theorem subAlgorithmic_nobs : ∀ l, noBackslash l = true → subAlgorithmic l = l := by
  apply strongListInd
  intro l ih h
  cases l with
  | nil => rfl
  | cons c t =>
    obtain ⟨hc, ht⟩ := noBackslash_cons _ _ h
    rw [subAlgorithmic_cons]
    have hlw := leadsWith_false_of_head algomicMarker (by rfl) c t hc
    simp only [hlw, Bool.false_eq_true, if_false]
    rw [ih t (by simp) ht]

theorem subItemLabel_nobs : ∀ l, noBackslash l = true → subItemLabel l = l := by
  apply strongListInd
  intro l ih h
  cases l with
  | nil => rfl
  | cons c t =>
    obtain ⟨hc, ht⟩ := noBackslash_cons _ _ h
    rw [subItemLabel_cons]
    have hlw := leadsWith_false_of_head itemLMarker (by rfl) c t hc
    simp only [hlw, Bool.false_eq_true, if_false]
    rw [ih t (by simp) ht]

theorem subSubsection_nobs : ∀ l, noBackslash l = true → subSubsection l = l := by
  apply strongListInd
  intro l ih h
  cases l with
  | nil => rfl
  | cons c t =>
    obtain ⟨hc, ht⟩ := noBackslash_cons _ _ h
    rw [subSubsection_cons]
    have hlw := leadsWith_false_of_head subsecMarker (by rfl) c t hc
    have hlw2 := leadsWith_false_of_head subsecStarMarker (by rfl) c t hc
    simp only [hlw, hlw2, Bool.false_eq_true, if_false]
    rw [ih t (by simp) ht]

theorem splitNL_ne_nil (l : List Char) : splitNL l ≠ [] := by
  cases l with
  | nil => simp [splitNL]
  | cons c t =>
    by_cases hc : (c == '\n') = true
    · simp [splitNL, hc]
    · simp only [splitNL, hc, Bool.false_eq_true, if_false]
      cases splitNL t <;> simp

theorem joinNL_splitNL (l : List Char) : joinNL (splitNL l) = l := by
  induction l with
  | nil => rfl
  | cons c t ih =>
    by_cases hc : (c == '\n') = true
    · have hc' : c = '\n' := by simpa using hc
      subst hc'
      simp only [splitNL, if_pos rfl]
      cases hS : splitNL t with
      | nil => exact absurd hS (splitNL_ne_nil t)
      | cons a r =>
        rw [hS] at ih
        simp [joinNL, ih]
    · simp only [splitNL, hc, Bool.false_eq_true, if_false]
      cases hS : splitNL t with
      | nil => exact absurd hS (splitNL_ne_nil t)
      | cons a r =>
        rw [hS] at ih
        cases r with
        | nil => simpa [joinNL] using congrArg (fun x => c :: x) ih
        | cons b r' => simpa [joinNL] using congrArg (fun x => c :: x) ih

theorem linesPass_normal (l : List Char) (h : linesNormal l = true) : linesPass l = l := by
  unfold linesPass
  have hmap : ((splitNL l).map fun line =>
      let s := pyStrip line
      if s.isEmpty then "<br>".data else s) = splitNL l := by
    have hall : ∀ line ∈ splitNL l, line ≠ [] ∧ pyStrip line = line := by
      intro line hline
      have := (List.all_eq_true.mp h) line hline
      simp only [Bool.and_eq_true, Bool.not_eq_eq_eq_not, Bool.not_true, beq_iff_eq] at this
      exact ⟨by simpa using this.1, this.2⟩
    calc ((splitNL l).map fun line =>
          let s := pyStrip line
          if s.isEmpty then "<br>".data else s)
        = (splitNL l).map id := by
          apply List.map_congr_left
          intro a ha
          obtain ⟨h1, h2⟩ := hall a ha
          simp [h2, h1]
      _ = splitNL l := List.map_id _
  rw [hmap, joinNL_splitNL]

/-! ## Claims about the transcoder -/

/-- C2 (corrected): the display-math pass rewrites every block delimited
by backslash-bracket pairs into the same content delimited by double
dollars, matching across line boundaries (first conjunct, for any block
whose prefix has no opener and whose content has no closer, plus the
cross-line example in the third conjunct); the inner content is preserved
verbatim by that pass, but the final output only preserves it when no
later pass rewrites it (see `c2_counterexample`). -/
theorem c2_display_math :
    (∀ p c s : List Char, containsSub ['\\', '['] p = false →
        containsSub ['\\', ']'] c = false →
        subDisplayMath (p ++ '\\' :: '[' :: (c ++ '\\' :: ']' :: s)) =
          p ++ '$' :: '$' :: (c ++ '$' :: '$' :: subDisplayMath s)) ∧
    transcode "\\[E=mc^2\\]" = "$$E=mc^2$$" ∧
    transcode "\\[a\nb\\]" = "$$a\nb$$" := by
  refine ⟨?_, by decide, by decide⟩
  intro p c s hp hc
  exact subDisplayMath_append c s hc p hp

/-- C2 counterexample: inner content of a display-math block is not
always preserved verbatim in the final output — a spacing command inside
the block is rewritten by a later pass. -/
theorem c2_counterexample :
    transcode "\\[a\\quad b\\]" = "$$a&emsp; b$$" ∧
    containsSub "a\\quad b".data "$$a&emsp; b$$".data = false :=
  ⟨by decide, by decide⟩

/-- Witness for `c2_display_math`: its hypotheses hold at a concrete
prefix, content and suffix. -/
theorem c2_display_math_witness :
    (containsSub ['\\', '['] "x".data = false ∧
      containsSub ['\\', ']'] "y".data = false) ∧
    subDisplayMath ("x".data ++ '\\' :: '[' :: ("y".data ++ '\\' :: ']' :: "z".data)) =
      "x".data ++ '$' :: '$' :: ("y".data ++ '$' :: '$' :: subDisplayMath "z".data) :=
  ⟨⟨by decide, by decide⟩,
    c2_display_math.1 "x".data "y".data "z".data (by decide) (by decide)⟩

/-- C4 (corrected): the algorithmic-environment begin marker is rewritten
into the nested container element only when the bracketed argument is
present (with a possibly empty digit run); the end marker becomes the
container close tag. -/
theorem c4_algorithmic :
    (∀ ds s : List Char, ds.all Char.isDigit = true →
        subAlgorithmic (algomicMarker ++ (ds ++ ']' :: s)) =
          "<div class=\"algorithmic\">".data ++ subAlgorithmic s) ∧
    transcode "\\begin\x7balgorithmic\x7d[12]" = "<div class=\"algorithmic\">" ∧
    transcode "\\begin\x7balgorithmic\x7d[]" = "<div class=\"algorithmic\">" ∧
    transcode "\\end\x7balgorithmic\x7d" = "</div>" := by
  refine ⟨?_, by decide, by decide, by decide⟩
  intro ds s hds
  have hlen : algomicMarker.length = 20 := rfl
  have h20 : (algomicMarker ++ (ds ++ ']' :: s)).drop 20 = ds ++ ']' :: s := by
    have h := dropLenAppend algomicMarker (ds ++ ']' :: s) 0
    rw [hlen] at h
    simpa using h
  have htw : (ds ++ ']' :: s).takeWhile Char.isDigit = ds :=
    takeWhileAllAppend Char.isDigit ds ']' s hds (by decide)
  have hd1 : (algomicMarker ++ (ds ++ ']' :: s)).drop (20 + ds.length) = ']' :: s := by
    have h := dropLenAppend algomicMarker (ds ++ ']' :: s) ds.length
    rw [hlen] at h
    rw [h]
    simpa using dropLenAppend ds (']' :: s) 0
  have hd2 : (algomicMarker ++ (ds ++ ']' :: s)).drop (20 + ds.length + 1) = s := by
    have h := dropLenAppend algomicMarker (ds ++ ']' :: s) (ds.length + 1)
    rw [hlen] at h
    rw [show 20 + ds.length + 1 = 20 + (ds.length + 1) from by omega, h]
    simpa using dropLenAppend ds (']' :: s) 1
  have hlw : leadsWith algomicMarker (algomicMarker ++ (ds ++ ']' :: s)) = true :=
    leadsWith_append algomicMarker (ds ++ ']' :: s)
  have hcons : algomicMarker ++ (ds ++ ']' :: s) =
      '\\' :: (['b', 'e', 'g', 'i', 'n', '{', 'a', 'l', 'g', 'o', 'r', 'i', 't',
        'h', 'm', 'i', 'c', '}', '['] ++ (ds ++ ']' :: s)) := rfl
  rw [hcons] at h20 hd1 hd2 hlw ⊢
  rw [subAlgorithmic_cons]
  rw [hlw]
  simp only [if_true]
  rw [h20, htw, hd1]
  simp only [List.head?_cons, if_pos rfl]
  rw [hd2]
  simp

/-- C4 counterexample: an algorithmic begin marker without the bracketed
argument is not rewritten at all. -/
theorem c4_counterexample :
    transcode "\\begin\x7balgorithmic\x7d" = "\\begin\x7balgorithmic\x7d" ∧
    containsSub "<div".data "\\begin\x7balgorithmic\x7d".data = false :=
  ⟨by decide, by decide⟩

/-- Witness for `c4_algorithmic`: its hypothesis holds at a concrete
digit run and suffix. -/
theorem c4_algorithmic_witness :
    "3".data.all Char.isDigit = true ∧
    subAlgorithmic (algomicMarker ++ ("3".data ++ ']' :: "w".data)) =
      "<div class=\"algorithmic\">".data ++ subAlgorithmic "w".data :=
  ⟨by decide, c4_algorithmic.1 "3".data "w".data (by decide)⟩

/-- C5 (confirmed): the transcoder is a total function on strings (the
embedding returns a string for every input, including the empty string
and malformed braces), and text that matches no rewrite pattern passes
through unchanged: every substitution anchors on a backslash and the
per-line pass is the identity on line-normal text, so any input without a
backslash whose lines are all non-empty and stripped is returned
verbatim. -/
theorem c5_total_passthrough (s : String) (h1 : noBackslash s.data = true)
    (h2 : linesNormal s.data = true) : transcode s = s := by
  simp only [transcode, prepare_latex_for_katex]
  rw [subDisplayMath_nobs s.data h1]
  rw [replaceAll_nobs "\\begin\x7balgorithm\x7d".data _ (by rfl) s.data h1]
  rw [replaceAll_nobs "\\end\x7balgorithm\x7d".data _ (by rfl) s.data h1]
  rw [subAlgorithmic_nobs s.data h1]
  rw [replaceAll_nobs "\\end\x7balgorithmic\x7d".data _ (by rfl) s.data h1]
  rw [subGroupCmd_nobs "\\textbf\x7b".data _ _ (by rfl) s.data h1]
  rw [subGroupCmd_nobs "\\textit\x7b".data _ _ (by rfl) s.data h1]
  rw [subGroupCmd_nobs "\\emph\x7b".data _ _ (by rfl) s.data h1]
  rw [replaceAll_nobs "\\begin\x7bitemize\x7d".data _ (by rfl) s.data h1]
  rw [replaceAll_nobs "\\end\x7bitemize\x7d".data _ (by rfl) s.data h1]
  rw [replaceAll_nobs "\\begin\x7benumerate\x7d".data _ (by rfl) s.data h1]
  rw [replaceAll_nobs "\\end\x7benumerate\x7d".data _ (by rfl) s.data h1]
  rw [subItemLabel_nobs s.data h1]
  rw [replaceAll_nobs "\\item".data _ (by rfl) s.data h1]
  rw [subSubsection_nobs s.data h1]
  rw [replaceAll_nobs "\\Require".data _ (by rfl) s.data h1]
  rw [replaceAll_nobs "\\Ensure".data _ (by rfl) s.data h1]
  rw [replaceAll_nobs "\\State".data _ (by rfl) s.data h1]
  rw [replaceAll_nobs "\\Repeat".data _ (by rfl) s.data h1]
  rw [replaceAll_nobs "\\Until".data _ (by rfl) s.data h1]
  rw [replaceAll_nobs "\\If".data _ (by rfl) s.data h1]
  rw [replaceAll_nobs "\\Else".data _ (by rfl) s.data h1]
  rw [replaceAll_nobs "\\EndIf".data _ (by rfl) s.data h1]
  rw [replaceAll_nobs "\\For".data _ (by rfl) s.data h1]
  rw [replaceAll_nobs "\\EndFor".data _ (by rfl) s.data h1]
  rw [replaceAll_nobs "\\Return".data _ (by rfl) s.data h1]
  rw [replaceAll_nobs "\\quad".data _ (by rfl) s.data h1]
  rw [replaceAll_nobs "\\qquad".data _ (by rfl) s.data h1]
  rw [replaceAll_nobs "\\;".data _ (by rfl) s.data h1]
  rw [replaceAll_nobs "\\,".data _ (by rfl) s.data h1]
  rw [replaceAll_nobs "\\!".data _ (by rfl) s.data h1]
  rw [replaceAll_nobs "\\\\".data _ (by rfl) s.data h1]
  rw [replaceAll_nobs "\\newline".data _ (by rfl) s.data h1]
  rw [linesPass_normal s.data h2]

/-- Witness for `c5_total_passthrough`: a string of unmatched braces
passes through the transcoder unchanged. -/
theorem c5_total_passthrough_witness :
    (noBackslash "\x7b\x7b\x7b".data = true ∧ linesNormal "\x7b\x7b\x7b".data = true) ∧
    transcode "\x7b\x7b\x7b" = "\x7b\x7b\x7b" :=
  ⟨⟨by decide, by decide⟩, c5_total_passthrough "\x7b\x7b\x7b" (by decide) (by decide)⟩

/-- C7 counterexample: an input that contains the itemize block as a
substring but whose transcoded output has no opening list tag — an
earlier rewrite (a bold command with an unclosed brace) consumes the
begin-itemize marker. -/
theorem c7_counterexample :
    containsSub "\\begin\x7bitemize\x7d\\item A\\item B\\end\x7bitemize\x7d".data
      "\\textbf\x7b\\begin\x7bitemize\x7d\\item A\\item B\\end\x7bitemize\x7d".data = true ∧
    transcode "\\textbf\x7b\\begin\x7bitemize\x7d\\item A\\item B\\end\x7bitemize\x7d" =
      "<strong>\\begin\x7bitemize</strong><li> A<li> B</ul>" ∧
    containsSub "<ul>".data
      "<strong>\\begin\x7bitemize</strong><li> A<li> B</ul>".data = false :=
  ⟨by decide, by decide, by decide⟩

/-- C7 (corrected): for the itemize block itself the transcoder produces
an opening list tag, two bare list-item openings each preceding their
item's content, and a closing list tag, in order; an item with a
bracketed label yields a list item with the label bolded before the item
body, and list-item tags are not closed per item. -/
theorem c7_itemize_block :
    transcode "\\begin\x7bitemize\x7d\\item A\\item B\\end\x7bitemize\x7d" =
      "<ul><li> A<li> B</ul>" ∧
    transcode "\\begin\x7bitemize\x7d\\item[L] A\\end\x7bitemize\x7d" =
      "<ul><li><strong>L</strong>  A</ul>" :=
  ⟨by decide, by decide⟩

/-- C9 (confirmed): the transcoder maps the empty string to a single
line-break element, because the per-line pass maps every blank line —
including the sole empty line of an empty input — to a line-break
element (second conjunct: any all-whitespace single-line text becomes
exactly one line-break element). -/
theorem c9_empty_transcode :
    transcode "" = "<br>" ∧
    (∀ l : List Char, l.all isPySpace = true → '\n' ∉ l →
      linesPass l = "<br>".data) := by
  constructor
  · decide
  · intro l h1 h2
    unfold linesPass
    rw [splitNL_no_newline l h2]
    simp [pyStrip_nil_of_all_space l h1, joinNL]

/-- Witness for the general part of `c9_empty_transcode`: a single blank
line becomes one line-break element. -/
theorem c9_empty_transcode_witness :
    (([' '] : List Char).all isPySpace = true ∧ '\n' ∉ ([' '] : List Char)) ∧
    linesPass [' '] = "<br>".data :=
  ⟨⟨by decide, by decide⟩, c9_empty_transcode.2 [' '] (by decide) (by decide)⟩

/-! ## Stripping lemmas and the trim-and-discard claim -/

theorem dropWhile_head_false (p : Char → Bool) :
    ∀ (l : List Char) (c : Char) (t : List Char),
      List.dropWhile p l = c :: t → p c = false := by
  intro l
  induction l with
  | nil => intro c t h; simp at h
  | cons x xs ih =>
    intro c t h
    by_cases hx : p x = true
    · rw [List.dropWhile_cons, if_pos hx] at h
      exact ih c t h
    · rw [List.dropWhile_cons, if_neg hx] at h
      injection h with h1 _
      subst h1
      simpa using hx

theorem dropWhile_idem (p : Char → Bool) (l : List Char) :
    (l.dropWhile p).dropWhile p = l.dropWhile p := by
  cases h : l.dropWhile p with
  | nil => simp
  | cons c t =>
    have hc := dropWhile_head_false p l c t h
    rw [List.dropWhile_cons, if_neg (by simp [hc])]

theorem dropWhile_suffix_decomp (p : Char → Bool) (l : List Char) :
    ∃ u, l = u ++ l.dropWhile p := by
  induction l with
  | nil => exact ⟨[], rfl⟩
  | cons x xs ih =>
    by_cases hx : p x = true
    · obtain ⟨u, hu⟩ := ih
      rw [List.dropWhile_cons, if_pos hx]
      exact ⟨x :: u, by rw [List.cons_append, ← hu]⟩
    · exact ⟨[], by rw [List.dropWhile_cons, if_neg hx]; rfl⟩

theorem pyStrip_idem (l : List Char) : pyStrip (pyStrip l) = pyStrip l := by
  unfold pyStrip
  generalize hL : List.dropWhile isPySpace l = L
  have f1 : List.dropWhile isPySpace L = L := by
    rw [← hL]
    exact dropWhile_idem isPySpace l
  generalize hD : List.dropWhile isPySpace L.reverse = D
  have fD : List.dropWhile isPySpace D = D := by
    rw [← hD]
    exact dropWhile_idem isPySpace L.reverse
  have hstep : List.dropWhile isPySpace D.reverse = D.reverse := by
    cases hDr : D.reverse with
    | nil => simp
    | cons c t =>
      obtain ⟨u, hu⟩ := dropWhile_suffix_decomp isPySpace L.reverse
      rw [hD] at hu
      have hLrev : L = D.reverse ++ u.reverse := by
        have hrv := congrArg List.reverse hu
        rw [List.reverse_reverse, List.reverse_append] at hrv
        exact hrv
      have hLc : L = c :: (t ++ u.reverse) := by
        rw [hLrev, hDr]
        rfl
      have hhead : isPySpace c = false := by
        by_contra hcon
        have hc : isPySpace c = true := by simpa using hcon
        have hf := f1
        rw [hLc, List.dropWhile_cons, if_pos hc] at hf
        have hlen : ((t ++ u.reverse).dropWhile isPySpace).length ≤ (t ++ u.reverse).length :=
          (List.dropWhile_suffix isPySpace).sublist.length_le
        have hcg := congrArg List.length hf
        simp [List.length_append] at hcg hlen
        omega
      rw [List.dropWhile_cons, if_neg (by simp [hhead])]
  rw [hstep, List.reverse_reverse, fD]

/-- C3 (confirmed): every pair returned by the segmenter has question and
answer trimmed of leading and trailing whitespace and non-empty; a pair
whose stripped question or answer is empty is discarded by the keep step;
and a whitespace-only title strips to the empty question, so a marker
with an empty or whitespace-only title produces no record. -/
theorem c3_trim_discard :
    (∀ content : List Char, ∀ p : List Char × List Char,
        p ∈ parse_latex_file content →
        pyStrip p.1 = p.1 ∧ pyStrip p.2 = p.2 ∧ p.1 ≠ [] ∧ p.2 ≠ []) ∧
    (∀ t a : List Char, pyStrip t = [] ∨ pyStrip a = [] → keepPair (t, a) = none) ∧
    (∀ t : List Char, t.all isPySpace = true → pyStrip t = []) := by
  refine ⟨?_, ?_, ?_⟩
  · intro content p hp
    simp only [parse_latex_file, List.mem_filterMap] at hp
    obtain ⟨q, _, hkeep⟩ := hp
    simp only [keepPair] at hkeep
    by_cases hc : pyStrip q.1 ≠ [] ∧ pyStrip q.2 ≠ []
    · rw [if_pos hc] at hkeep
      injection hkeep with hkeep
      subst hkeep
      exact ⟨pyStrip_idem q.1, pyStrip_idem q.2, hc.1, hc.2⟩
    · rw [if_neg hc] at hkeep
      exact absurd hkeep (by simp)
  · intro t a h
    rcases h with h | h <;> simp [keepPair, h]
  · intro t h
    exact pyStrip_nil_of_all_space t h

/-- Witness for `c3_trim_discard`: a concrete record of a parsed document
is trimmed and non-empty. -/
theorem c3_trim_discard_witness :
    ("Q1".data, "A1".data) ∈ parse_latex_file "\\section\x7bQ1\x7d A1 ".data ∧
    (pyStrip ("Q1".data, "A1".data).1 = ("Q1".data, "A1".data).1 ∧
      pyStrip ("Q1".data, "A1".data).2 = ("Q1".data, "A1".data).2 ∧
      ("Q1".data, "A1".data).1 ≠ [] ∧ ("Q1".data, "A1".data).2 ≠ []) :=
  ⟨by decide,
    c3_trim_discard.1 "\\section\x7bQ1\x7d A1 ".data ("Q1".data, "A1".data) (by decide)⟩

/-! ## Invariants of the section scan -/

theorem findSectionsAux_mem :
    ∀ l : List Char, ∀ pos : Nat, ∀ m : SecMatch, m ∈ findSectionsAux l pos →
      pos ≤ m.sStart ∧ m.sStop = m.sStart + 10 + m.title.length ∧ m.title ≠ [] ∧
      List.drop (m.sStart - pos) l =
        secMarker ++ m.title ++ '}' :: List.drop (m.sStop - pos) l := by
  apply strongListInd
  intro l ih pos m hm
  cases l with
  | nil => exact absurd hm (by simp [findSectionsAux, findSectionsAuxF])
  | cons c t =>
    rw [findSectionsAux_cons] at hm
    by_cases hlw : leadsWith secMarker (c :: t) = true
    · rw [if_pos hlw] at hm
      cases hfb : findBraceIdx ((c :: t).drop 9) with
      | none =>
        simp only [hfb] at hm
        obtain ⟨h1, h2, h3, h4⟩ := ih t (by simp) (pos + 1) m hm
        refine ⟨by omega, h2, h3, ?_⟩
        rw [show m.sStart - pos = (m.sStart - (pos + 1)) + 1 from by omega,
          show m.sStop - pos = (m.sStop - (pos + 1)) + 1 from by omega,
          List.drop_succ_cons, List.drop_succ_cons]
        exact h4
      | some i =>
        simp only [hfb] at hm
        by_cases hi : (i == 0) = true
        · rw [if_pos hi] at hm
          obtain ⟨h1, h2, h3, h4⟩ := ih t (by simp) (pos + 1) m hm
          refine ⟨by omega, h2, h3, ?_⟩
          rw [show m.sStart - pos = (m.sStart - (pos + 1)) + 1 from by omega,
            show m.sStop - pos = (m.sStop - (pos + 1)) + 1 from by omega,
            List.drop_succ_cons, List.drop_succ_cons]
          exact h4
        · rw [if_neg hi] at hm
          rcases List.mem_cons.mp hm with hm | hm
          · subst hm
            obtain ⟨hilt, hdecomp⟩ := findBraceIdx_decomp ((c :: t).drop 9) i hfb
            have hilt' : i < t.length + 1 - 9 := by
              simpa [List.length_drop] using hilt
            have htlen : (((c :: t).drop 9).take i).length = i := by
              simp only [List.length_take, List.length_drop, List.length_cons]
              omega
            have hiz : i ≠ 0 := by simpa using hi
            refine ⟨le_refl _, ?_, ?_, ?_⟩
            · show pos + 10 + i = pos + 10 + (((c :: t).drop 9).take i).length
              rw [htlen]
            · show ((c :: t).drop 9).take i ≠ []
              intro hemp
              rw [hemp] at htlen
              simp at htlen
              exact hiz htlen.symm
            · show List.drop (pos - pos) (c :: t) =
                secMarker ++ ((c :: t).drop 9).take i ++
                  '}' :: List.drop (pos + 10 + i - pos) (c :: t)
              simp only [Nat.sub_self, List.drop_zero]
              have hsec := leadsWith_decomp secMarker (c :: t) hlw
              have hdd : List.drop (pos + 10 + i - pos) (c :: t) =
                  ((c :: t).drop 9).drop (i + 1) := by
                rw [List.drop_drop]
                congr 1
                omega
              rw [hdd]
              calc c :: t = secMarker ++ (c :: t).drop 9 := by
                    simpa using hsec
                _ = secMarker ++ (((c :: t).drop 9).take i ++
                      '}' :: ((c :: t).drop 9).drop (i + 1)) := by rw [← hdecomp]
                _ = secMarker ++ ((c :: t).drop 9).take i ++
                      '}' :: ((c :: t).drop 9).drop (i + 1) := by
                    simp [List.append_assoc]
          · have hlt : ((c :: t).drop (10 + i)).length < (c :: t).length := by
              simp [List.length_drop]
            obtain ⟨h1, h2, h3, h4⟩ := ih ((c :: t).drop (10 + i)) hlt (pos + 10 + i) m hm
            refine ⟨by omega, h2, h3, ?_⟩
            have e1 : List.drop (m.sStart - pos) (c :: t) =
                List.drop (m.sStart - (pos + 10 + i)) ((c :: t).drop (10 + i)) := by
              rw [List.drop_drop]
              congr 1
              omega
            have e2 : List.drop (m.sStop - pos) (c :: t) =
                List.drop (m.sStop - (pos + 10 + i)) ((c :: t).drop (10 + i)) := by
              rw [List.drop_drop]
              congr 1
              omega
            rw [e1, e2]
            exact h4
    · rw [if_neg hlw] at hm
      obtain ⟨h1, h2, h3, h4⟩ := ih t (by simp) (pos + 1) m hm
      refine ⟨by omega, h2, h3, ?_⟩
      rw [show m.sStart - pos = (m.sStart - (pos + 1)) + 1 from by omega,
        show m.sStop - pos = (m.sStop - (pos + 1)) + 1 from by omega,
        List.drop_succ_cons, List.drop_succ_cons]
      exact h4

theorem findSectionsAux_chain :
    ∀ l : List Char, ∀ pos : Nat,
      List.Chain' (fun a b : SecMatch => a.sStop ≤ b.sStart) (findSectionsAux l pos) := by
  apply strongListInd
  intro l ih pos
  cases l with
  | nil => exact List.chain'_nil
  | cons c t =>
    rw [findSectionsAux_cons]
    by_cases hlw : leadsWith secMarker (c :: t) = true
    · rw [if_pos hlw]
      cases hfb : findBraceIdx ((c :: t).drop 9) with
      | none => exact ih t (by simp) (pos + 1)
      | some i =>
        simp only [hfb]
        by_cases hi : (i == 0) = true
        · rw [if_pos hi]
          exact ih t (by simp) (pos + 1)
        · rw [if_neg hi]
          rw [List.chain'_cons']
          constructor
          · intro b hb
            have hbmem := List.mem_of_mem_head? hb
            have := findSectionsAux_mem _ _ b hbmem
            exact this.1
          · exact ih ((c :: t).drop (10 + i)) (by simp [List.length_drop]) (pos + 10 + i)
    · rw [if_neg hlw]
      exact ih t (by simp) (pos + 1)

theorem chainDrop {R : SecMatch → SecMatch → Prop} :
    ∀ (i : Nat) (l : List SecMatch), List.Chain' R l → List.Chain' R (l.drop i) := by
  intro i
  induction i with
  | zero => intro l h; simpa using h
  | succ i ih =>
    intro l h
    rw [← List.tail_drop]
    exact (ih l h).tail

theorem rawPairs_drop (content : List Char) :
    ∀ (ms : List SecMatch) (i : Nat),
      (rawPairs content ms).drop i = rawPairs content (ms.drop i) := by
  intro ms
  induction ms with
  | nil => intro i; simp [rawPairs]
  | cons m rest ih =>
    intro i
    cases i with
    | zero => rfl
    | succ i' =>
      simp only [rawPairs, List.drop_succ_cons]
      exact ih i'

/-- C1 (confirmed): for every document and every position `i` in the
match list, if boundaries `i` and `i+1` both exist then record `i`'s raw
answer span is exactly the text from the end of boundary `i`'s marker to
the start of boundary `i+1`, the spans do not overlap (`sStop ≤` next
`sStart`), and the text between consecutive boundary starts is exactly
the marker followed by the span (nothing dropped); if boundary `i` is the
last one, its span ends at the first division marker found after it when
one exists (`findPartIdx` returns the first such index) and otherwise at
the end of the document. -/
theorem c1_answer_spans (content : List Char) (i : Nat) :
    (∀ m m' rest, (sectionMatches content).drop i = m :: m' :: rest →
        (rawPairs content (sectionMatches content)).drop i =
          (m.title, pySlice content m.sStop m'.sStart) ::
            rawPairs content (m' :: rest) ∧
        m.sStop ≤ m'.sStart ∧
        pySlice content m.sStart m'.sStart =
          (secMarker ++ m.title ++ ['}']) ++ pySlice content m.sStop m'.sStart) ∧
    (∀ m, (sectionMatches content).drop i = [m] →
        (rawPairs content (sectionMatches content)).drop i =
          [(m.title, pySlice content m.sStop (lastAnswerEnd content m.sStop))] ∧
        (∀ k, findPartIdx (content.drop m.sStop) = some k →
            lastAnswerEnd content m.sStop = m.sStop + k ∧
            leadsWith partMarker ((content.drop m.sStop).drop k) = true ∧
            (∀ j, j < k → leadsWith partMarker ((content.drop m.sStop).drop j) = false)) ∧
        (findPartIdx (content.drop m.sStop) = none →
            lastAnswerEnd content m.sStop = content.length ∧
            ∀ j, leadsWith partMarker ((content.drop m.sStop).drop j) = false)) := by
  constructor
  · intro m m' rest h
    have hm0 : m ∈ sectionMatches content := by
      have hsub := (List.drop_sublist i (sectionMatches content)).subset
      exact hsub (h ▸ List.mem_cons_self m (m' :: rest))
    have hch := chainDrop i (sectionMatches content) (findSectionsAux_chain content 0)
    rw [h] at hch
    have hle : m.sStop ≤ m'.sStart := (List.chain'_cons.mp hch).1
    refine ⟨?_, hle, ?_⟩
    · rw [rawPairs_drop, h]
      rfl
    · obtain ⟨hp0, hstop, hne, hdec⟩ := findSectionsAux_mem content 0 m hm0
      simp only [Nat.sub_zero] at hdec
      unfold pySlice
      rw [hdec]
      have hPD : secMarker ++ m.title ++ '}' :: List.drop m.sStop content =
          (secMarker ++ m.title ++ ['}']) ++ List.drop m.sStop content := by
        simp [List.append_assoc]
      rw [hPD]
      have hPlen : (secMarker ++ m.title ++ ['}']).length = 10 + m.title.length := by
        simp [secMarker]
        omega
      rw [show m'.sStart - m.sStart =
        (secMarker ++ m.title ++ ['}']).length + (m'.sStart - m.sStop) from by
          rw [hPlen]; omega]
      exact takeLenAppend _ _ _
  · intro m h
    refine ⟨?_, ?_, ?_⟩
    · rw [rawPairs_drop, h]
      rfl
    · intro k hk
      refine ⟨by simp [lastAnswerEnd, hk], ?_⟩
      exact findPartIdx_some (content.drop m.sStop) k hk
    · intro hnone
      refine ⟨by simp [lastAnswerEnd, hnone], ?_⟩
      exact findPartIdx_none (content.drop m.sStop) hnone

/-- Witness for `c1_answer_spans`: its hypotheses hold on a two-section
document, where the first span is exactly the text between the first
marker's end and the second match's start. -/
theorem c1_answer_spans_witness :
    (sectionMatches "\\section\x7bQ1\x7d A1 \\section\x7bQ2\x7d A2".data).drop 0 =
      [⟨0, 12, "Q1".data⟩, ⟨16, 28, "Q2".data⟩] ∧
    ((rawPairs "\\section\x7bQ1\x7d A1 \\section\x7bQ2\x7d A2".data
        (sectionMatches "\\section\x7bQ1\x7d A1 \\section\x7bQ2\x7d A2".data)).drop 0 =
      ("Q1".data, pySlice "\\section\x7bQ1\x7d A1 \\section\x7bQ2\x7d A2".data 12 16) ::
        rawPairs "\\section\x7bQ1\x7d A1 \\section\x7bQ2\x7d A2".data [⟨16, 28, "Q2".data⟩] ∧
      (12 : Nat) ≤ 16 ∧
      pySlice "\\section\x7bQ1\x7d A1 \\section\x7bQ2\x7d A2".data 0 16 =
        (secMarker ++ "Q1".data ++ ['}']) ++
          pySlice "\\section\x7bQ1\x7d A1 \\section\x7bQ2\x7d A2".data 12 16) :=
  ⟨by decide,
    (c1_answer_spans "\\section\x7bQ1\x7d A1 \\section\x7bQ2\x7d A2".data 0).1
      ⟨0, 12, "Q1".data⟩ ⟨16, 28, "Q2".data⟩ [] (by decide)⟩

/-- C10 (corrected): a section command with literally empty braces never
matches the boundary pattern — every match found has a non-empty title
and its matched text is the marker, the title, and a closing brace, which
is never the ten-character empty-title marker; but the empty-title
marker's text does not always remain verbatim inside an enclosing answer
span or precede every boundary, because it can be absorbed into the title
of a match anchored at an earlier unclosed section marker (see
`c10_counterexample`). -/
theorem c10_empty_title (content : List Char) (m : SecMatch)
    (hm : m ∈ sectionMatches content) :
    m.title ≠ [] ∧
    pySlice content m.sStart m.sStop = secMarker ++ m.title ++ ['}'] ∧
    pySlice content m.sStart m.sStop ≠ "\\section\x7b\x7d".data := by
  obtain ⟨hp0, hstop, hne, hdec⟩ := findSectionsAux_mem content 0 m hm
  simp only [Nat.sub_zero] at hdec
  have hslice : pySlice content m.sStart m.sStop = secMarker ++ m.title ++ ['}'] := by
    unfold pySlice
    rw [hdec]
    have hPD : secMarker ++ m.title ++ '}' :: List.drop m.sStop content =
        (secMarker ++ m.title ++ ['}']) ++ List.drop m.sStop content := by
      simp [List.append_assoc]
    rw [hPD]
    have hPlen : (secMarker ++ m.title ++ ['}']).length = 10 + m.title.length := by
      simp [secMarker]
      omega
    rw [show m.sStop - m.sStart = (secMarker ++ m.title ++ ['}']).length + 0 from by
      rw [hPlen]; omega]
    simpa using takeLenAppend (secMarker ++ m.title ++ ['}']) (List.drop m.sStop content) 0
  refine ⟨hne, hslice, ?_⟩
  rw [hslice]
  intro heq
  have hlen := congrArg List.length heq
  have h10 : ("\\section\x7b\x7d".data).length = 10 := by decide
  have h9 : secMarker.length = 9 := by decide
  rw [h10] at hlen
  simp only [List.length_append, List.length_cons, List.length_nil, h9] at hlen
  exact hne (List.length_eq_zero.mp (by omega))

/-- C10 counterexample: in this document the empty-title marker's text is
absorbed into the title of a match anchored at the earlier unclosed
section command; the only answer span is `x`, which does not contain the
marker text, and the marker does not precede the (unique) boundary, which
starts at position 0. -/
theorem c10_counterexample :
    containsSub "\\section\x7b\x7d".data "\\section\x7ba\\section\x7b\x7dx".data = true ∧
    sectionMatches "\\section\x7ba\\section\x7b\x7dx".data =
      [⟨0, 20, "a\\section\x7b".data⟩] ∧
    parse_latex_file "\\section\x7ba\\section\x7b\x7dx".data =
      [("a\\section\x7b".data, "x".data)] ∧
    containsSub "\\section\x7b\x7d".data "x".data = false :=
  ⟨by decide, by decide, by decide, by decide⟩

/-- Witness for `c10_empty_title`: a concrete match of a parsed document
has a non-empty title and its matched text is not the empty-title
marker. -/
theorem c10_empty_title_witness :
    (⟨0, 12, "Q1".data⟩ : SecMatch) ∈ sectionMatches "\\section\x7bQ1\x7d A1".data ∧
    ((⟨0, 12, "Q1".data⟩ : SecMatch).title ≠ [] ∧
      pySlice "\\section\x7bQ1\x7d A1".data 0 12 = secMarker ++ "Q1".data ++ ['}'] ∧
      pySlice "\\section\x7bQ1\x7d A1".data 0 12 ≠ "\\section\x7b\x7d".data) :=
  ⟨by decide, c10_empty_title "\\section\x7bQ1\x7d A1".data ⟨0, 12, "Q1".data⟩ (by decide)⟩

/-! ## Order lemmas for file names and the loader claims -/

theorem lexLe_refl (a : List Char) : lexLe a a = true := by
  induction a with
  | nil => rfl
  | cons x xs ih => simp [lexLe, lt_irrefl, ih]

theorem lexLe_total (a : List Char) : ∀ b, lexLe a b = true ∨ lexLe b a = true := by
  induction a with
  | nil => intro b; left; rfl
  | cons x xs ih =>
    intro b
    cases b with
    | nil => right; rfl
    | cons y ys =>
      rcases lt_trichotomy x y with h | h | h
      · left; simp [lexLe, h]
      · subst h
        rcases ih ys with hh | hh
        · left; simp [lexLe, lt_irrefl, hh]
        · right; simp [lexLe, lt_irrefl, hh]
      · right; simp [lexLe, h]

theorem lexLe_trans (a : List Char) :
    ∀ b c, lexLe a b = true → lexLe b c = true → lexLe a c = true := by
  induction a with
  | nil => intro b c _ _; rfl
  | cons x xs ih =>
    intro b c hab hbc
    cases b with
    | nil => simp [lexLe] at hab
    | cons y ys =>
      cases c with
      | nil => simp [lexLe] at hbc
      | cons z zs =>
        rcases lt_trichotomy x y with h1 | h1 | h1
        · rcases lt_trichotomy y z with h2 | h2 | h2
          · simp [lexLe, lt_trans h1 h2]
          · subst h2; simp [lexLe, h1]
          · simp [lexLe, asymm h2, h2] at hbc
        · subst h1
          simp only [lexLe, lt_irrefl, if_false] at hab hbc ⊢
          rcases lt_trichotomy x z with h2 | h2 | h2
          · simp [h2]
          · subst h2
            simp [lt_irrefl] at hab hbc ⊢
            exact ih ys zs hab hbc
          · simp [asymm h2, h2] at hbc
        · simp [lexLe, asymm h1, h1] at hab

theorem lexLe_antisymm (a : List Char) :
    ∀ b, lexLe a b = true → lexLe b a = true → a = b := by
  induction a with
  | nil =>
    intro b _ hba
    cases b with
    | nil => rfl
    | cons y ys => simp [lexLe] at hba
  | cons x xs ih =>
    intro b hab hba
    cases b with
    | nil => simp [lexLe] at hab
    | cons y ys =>
      rcases lt_trichotomy x y with h | h | h
      · simp [lexLe, asymm h, h] at hba
      · subst h
        simp only [lexLe, lt_irrefl, if_false] at hab hba
        rw [ih ys hab hba]
      · simp [lexLe, asymm h, h] at hab

theorem pairwise_tag_const {α : Type} (l : List α) (n : List Char) (h : lexRel n n) :
    List.Pairwise lexRel (l.map fun _ => n) := by
  induction l with
  | nil => simp
  | cons x xs ih =>
    simp only [List.map_cons, List.pairwise_cons]
    refine ⟨fun b hb => ?_, ih⟩
    rcases List.mem_map.mp hb with ⟨_, _, rfl⟩
    exact h

theorem goLoad_ok_mem (dir : List (List Char × Except Nat (List Char))) :
    ∀ names out, goLoad dir names = Except.ok out →
      ∀ r ∈ out, r.2.2 ∈ names ∧
        ∃ c, lookupName r.2.2 dir = some (Except.ok c) ∧
          (r.1, r.2.1) ∈ parse_latex_file c := by
  intro names
  induction names with
  | nil =>
    intro out h r hr
    simp only [goLoad, Except.ok.injEq] at h
    subst h
    simp at hr
  | cons n rest ih =>
    intro out h r hr
    simp only [goLoad] at h
    cases hl : lookupName n dir with
    | none =>
      simp only [hl] at h
      obtain ⟨h1, h2⟩ := ih out h r hr
      exact ⟨by simp [h1], h2⟩
    | some v =>
      cases v with
      | error e => simp [hl] at h
      | ok content =>
        simp only [hl] at h
        cases hg : goLoad dir rest with
        | error e => simp [hg] at h
        | ok out' =>
          simp only [hg, Except.ok.injEq] at h
          subst h
          rcases List.mem_append.mp hr with hr | hr
          · obtain ⟨p, hp, hpe⟩ := List.mem_map.mp hr
            subst hpe
            exact ⟨by simp, content, hl, by simpa using hp⟩
          · obtain ⟨h1, h2⟩ := ih out' hg r hr
            exact ⟨by simp [h1], h2⟩

theorem goLoad_ok_sorted (dir : List (List Char × Except Nat (List Char))) :
    ∀ names out, List.Sorted lexRel names → goLoad dir names = Except.ok out →
      List.Sorted lexRel (out.map fun r => r.2.2) := by
  intro names
  induction names with
  | nil =>
    intro out _ h
    simp only [goLoad, Except.ok.injEq] at h
    subst h
    simp
  | cons n rest ih =>
    intro out hsort h
    obtain ⟨hn, hrest⟩ := List.sorted_cons.mp hsort
    simp only [goLoad] at h
    cases hl : lookupName n dir with
    | none =>
      simp only [hl] at h
      exact ih out hrest h
    | some v =>
      cases v with
      | error e => simp [hl] at h
      | ok content =>
        simp only [hl] at h
        cases hg : goLoad dir rest with
        | error e => simp [hg] at h
        | ok out' =>
          simp only [hg, Except.ok.injEq] at h
          subst h
          rw [List.map_append]
          apply List.pairwise_append.mpr
          refine ⟨?_, ih out' hrest hg, ?_⟩
          · rw [List.map_map]
            exact pairwise_tag_const (parse_latex_file content) n (lexLe_refl n)
          · intro a ha b hb
            rw [List.map_map] at ha
            rcases List.mem_map.mp ha with ⟨p, _, rfl⟩
            rcases List.mem_map.mp hb with ⟨r, hr, rfl⟩
            exact hn _ (goLoad_ok_mem dir rest out' hg r hr).1

theorem lookupName_perm :
    ∀ dir dir' : List (List Char × Except Nat (List Char)),
      List.Perm dir dir' → (dir.map Prod.fst).Nodup →
      ∀ n, lookupName n dir = lookupName n dir' := by
  intro dir dir' hperm
  induction hperm with
  | nil => intro _ n; rfl
  | cons x h ih =>
    intro hnd n
    obtain ⟨k, v⟩ := x
    simp only [List.map_cons, List.nodup_cons] at hnd
    simp only [lookupName]
    by_cases hk : k = n
    · simp [hk]
    · simp only [hk, if_false]
      exact ih hnd.2 n
  | swap x y t =>
    intro hnd n
    obtain ⟨kx, vx⟩ := x
    obtain ⟨ky, vy⟩ := y
    simp only [List.map_cons, List.nodup_cons, List.mem_cons] at hnd
    have hne : ky ≠ kx := fun he => hnd.1 (Or.inl he)
    simp only [lookupName]
    by_cases h1 : ky = n
    · subst h1
      simp [Ne.symm hne]
    · by_cases h2 : kx = n
      · simp [h1, h2]
      · simp [h1, h2]
  | trans h₁ h₂ ih₁ ih₂ =>
    intro hnd n
    have hnd2 := ((h₁.map Prod.fst).nodup_iff).mp hnd
    rw [ih₁ hnd n, ih₂ hnd2 n]

theorem goLoad_congr (dir dir' : List (List Char × Except Nat (List Char)))
    (h : ∀ n, lookupName n dir = lookupName n dir') :
    ∀ names, goLoad dir names = goLoad dir' names := by
  intro names
  induction names with
  | nil => rfl
  | cons n rest ih => simp only [goLoad, h n, ih]

theorem lookupName_of_mem (dir : List (List Char × Except Nat (List Char)))
    (n : List Char) (v : Except Nat (List Char))
    (hnd : (dir.map Prod.fst).Nodup) (hmem : (n, v) ∈ dir) :
    lookupName n dir = some v := by
  induction dir with
  | nil => simp at hmem
  | cons x t ih =>
    obtain ⟨k, w⟩ := x
    simp only [List.map_cons, List.nodup_cons] at hnd
    rcases List.mem_cons.mp hmem with hmem | hmem
    · obtain ⟨h1, h2⟩ := Prod.mk.injEq .. ▸ hmem
      simp [lookupName, h1.symm, h2]
    · have hk : k ≠ n := by
        intro he
        subst he
        exact hnd.1 (List.mem_map.mpr ⟨(k, v), hmem, rfl⟩)
      simp [lookupName, hk, ih hnd.2 hmem]

theorem goLoad_err (dir : List (List Char × Except Nat (List Char)))
    (n : List Char) (e : Nat) (hl : lookupName n dir = some (Except.error e)) :
    ∀ names, n ∈ names → ∃ e', goLoad dir names = Except.error e' := by
  intro names
  induction names with
  | nil => intro h; simp at h
  | cons n₀ rest ih =>
    intro hmem
    cases hl0 : lookupName n₀ dir with
    | none =>
      rcases List.mem_cons.mp hmem with rfl | hmem
      · rw [hl0] at hl
        simp at hl
      · obtain ⟨e', he⟩ := ih hmem
        exact ⟨e', by simp [goLoad, hl0, he]⟩
    | some v =>
      cases v with
      | error x => exact ⟨x, by simp [goLoad, hl0]⟩
      | ok content =>
        rcases List.mem_cons.mp hmem with rfl | hmem
        · rw [hl0] at hl
          simp at hl
        · obtain ⟨e', he⟩ := ih hmem
          exact ⟨e', by simp [goLoad, hl0, he]⟩

/-- C6 (corrected): when loading succeeds, the records are grouped by
origin file in lexicographic file-name order, every record's tag is a
file whose name matches the glob (prefix `lecture_`, suffix `.tex`, any
middle — not only numeric indices) and whose parsed content contains the
record's pair; and the result is independent of the iteration order of
the directory listing (invariant under permutation, given distinct file
names). -/
theorem c6_loadall :
    (∀ dir out, load_all_flashcards dir = Except.ok out →
        List.Sorted lexRel (out.map fun r => r.2.2) ∧
        ∀ r ∈ out, matchesLectureGlob r.2.2 = true ∧
          ∃ c, lookupName r.2.2 dir = some (Except.ok c) ∧
            (r.1, r.2.1) ∈ parse_latex_file c) ∧
    (∀ dir dir', List.Perm dir dir' → (dir.map Prod.fst).Nodup →
        load_all_flashcards dir = load_all_flashcards dir') := by
  haveI hTot : IsTotal (List Char) lexRel := ⟨lexLe_total⟩
  haveI hTrans : IsTrans (List Char) lexRel := ⟨lexLe_trans⟩
  haveI hAnti : IsAntisymm (List Char) lexRel := ⟨lexLe_antisymm⟩
  constructor
  · intro dir out h
    constructor
    · exact goLoad_ok_sorted dir _ out
        (List.sorted_insertionSort lexRel ((dir.map Prod.fst).filter matchesLectureGlob)) h
    · intro r hr
      obtain ⟨h1, h2⟩ := goLoad_ok_mem dir _ out h r hr
      have hmem : r.2.2 ∈ (dir.map Prod.fst).filter matchesLectureGlob :=
        (List.perm_insertionSort lexRel _).mem_iff.mp h1
      exact ⟨(List.mem_filter.mp hmem).2, h2⟩
  · intro dir dir' hperm hnd
    unfold load_all_flashcards
    have hnames : List.insertionSort lexRel ((dir.map Prod.fst).filter matchesLectureGlob)
        = List.insertionSort lexRel ((dir'.map Prod.fst).filter matchesLectureGlob) := by
      exact @List.eq_of_perm_of_sorted (List Char) lexRel hAnti _ _
        ((List.perm_insertionSort lexRel _).trans
          (((hperm.map Prod.fst).filter matchesLectureGlob).trans
            (List.perm_insertionSort lexRel _).symm))
        (List.sorted_insertionSort lexRel _)
        (List.sorted_insertionSort lexRel _)
    rw [hnames]
    exact goLoad_congr dir dir' (lookupName_perm dir dir' hperm hnd) _

/-- C6 counterexample: a file whose name matches `lecture_*.tex` but has
no numeric lecture index is still processed by the loader. -/
theorem c6_counterexample :
    load_all_flashcards [("lecture_x.tex".data, Except.ok "\\section\x7bQ\x7d A".data)] =
      Except.ok [("Q".data, "A".data, "lecture_x.tex".data)] ∧
    "lecture_x.tex".data.all (fun c => !c.isDigit) = true :=
  ⟨by decide, by decide⟩

/-- Witness for `c6_loadall`: a directory listed out of name order loads
with the records of `lecture_01.tex` before those of `lecture_02.tex`. -/
theorem c6_loadall_witness :
    load_all_flashcards [("lecture_02.tex".data, Except.ok "\\section\x7bB\x7d b".data),
        ("lecture_01.tex".data, Except.ok "\\section\x7bA\x7d a".data)] =
      Except.ok [("A".data, "a".data, "lecture_01.tex".data),
        ("B".data, "b".data, "lecture_02.tex".data)] ∧
    (List.Sorted lexRel
        (([("A".data, "a".data, "lecture_01.tex".data),
          ("B".data, "b".data, "lecture_02.tex".data)] :
            List (List Char × List Char × List Char)).map fun r => r.2.2) ∧
      ∀ r ∈ ([("A".data, "a".data, "lecture_01.tex".data),
          ("B".data, "b".data, "lecture_02.tex".data)] :
            List (List Char × List Char × List Char)),
        matchesLectureGlob r.2.2 = true ∧
          ∃ c, lookupName r.2.2
              [("lecture_02.tex".data, Except.ok "\\section\x7bB\x7d b".data),
                ("lecture_01.tex".data, Except.ok "\\section\x7bA\x7d a".data)] =
              some (Except.ok c) ∧
            (r.1, r.2.1) ∈ parse_latex_file c) :=
  ⟨by decide,
    c6_loadall.1 [("lecture_02.tex".data, Except.ok "\\section\x7bB\x7d b".data),
        ("lecture_01.tex".data, Except.ok "\\section\x7bA\x7d a".data)]
      [("A".data, "a".data, "lecture_01.tex".data),
        ("B".data, "b".data, "lecture_02.tex".data)] (by decide)⟩

/-- C8 (confirmed): if any file matching the glob cannot be read or
decoded (its directory entry is an error), the aggregate loader
propagates an error to its caller instead of returning a partial `ok`
result — read and decode failures are never swallowed. -/
theorem c8_error_propagation (dir : List (List Char × Except Nat (List Char)))
    (n : List Char) (e : Nat) (hnd : (dir.map Prod.fst).Nodup)
    (hmem : (n, Except.error e) ∈ dir) (hglob : matchesLectureGlob n = true) :
    ∃ e', load_all_flashcards dir = Except.error e' := by
  have hl := lookupName_of_mem dir n _ hnd hmem
  have hnames : n ∈ List.insertionSort lexRel
      ((dir.map Prod.fst).filter matchesLectureGlob) := by
    rw [(List.perm_insertionSort lexRel _).mem_iff]
    exact List.mem_filter.mpr ⟨List.mem_map.mpr ⟨(n, Except.error e), hmem, rfl⟩, hglob⟩
  exact goLoad_err dir n e hl _ hnames

/-- Witness for `c8_error_propagation`: a directory whose only lecture
file fails to read makes the loader return an error. -/
theorem c8_error_propagation_witness :
    ((([("lecture_01.tex".data, (Except.error 7 : Except Nat (List Char)))].map
        Prod.fst).Nodup) ∧
      ("lecture_01.tex".data, (Except.error 7 : Except Nat (List Char))) ∈
        [("lecture_01.tex".data, (Except.error 7 : Except Nat (List Char)))] ∧
      matchesLectureGlob "lecture_01.tex".data = true) ∧
    ∃ e', load_all_flashcards
        [("lecture_01.tex".data, (Except.error 7 : Except Nat (List Char)))] =
      Except.error e' :=
  ⟨⟨by decide, by decide, by decide⟩,
    c8_error_propagation [("lecture_01.tex".data, Except.error 7)]
      "lecture_01.tex".data 7 (by decide) (by decide) (by decide)⟩
